import Mathlib

/-!
Verification of the fgmetric field-transformation pipeline.

This file shallowly embeds the core of the `fgmetric` package:

* `fgmetric/_typing_extensions.py` — type introspection over runtime type
  annotations (`is_optional`, `unpack_optional`, `is_list`,
  `has_optional_elements`, `has_origin`, `is_counter`);
* `fgmetric/collections/_delimited_list.py` — the `DelimitedList` mixin
  (`_split_lists`, `_join_lists`, `_require_single_character_collection_delimiter`);
* `fgmetric/collections/_counter_pivot_table.py` — the `CounterPivotTable`
  mixin (`_get_counter_fieldname`, `_get_counter_enum`,
  `_collect_counter_values`, `_pivot_counter_values`);
* `fgmetric/metric.py` — the `Metric` base class (`_empty_field_to_none`,
  `_header_fieldnames`) and the fixed validator pipeline order.

Python type annotations become the inductive `Ty`; rows (Python dicts from
`csv.DictReader`) become insertion-ordered association lists with
Python-dict update/insert/pop semantics; class-definition-time schema
validation (`__pydantic_init_subclass__` on both mixins) becomes `initModel`
returning `Except`.
-/

namespace FgMetric

/-! ## Values and rows

A `Val` is a runtime value that can appear in a raw or serialized row:
raw strings from `DictReader`, Python `None`, ints (counter counts after
coercion / before pivoting), lists produced by `_split_lists`, and the
member-token-keyed counts dict assembled by `_collect_counter_values`.
-/

inductive Val where
  | s : String → Val
  | vnone : Val
  | vint : Int → Val
  | vlist : List Val → Val
  | vcounts : List (String × Val) → Val

/-- A row: an insertion-ordered mapping from column name to value, exactly
as a Python `dict` holds it. -/
abbrev Row := List (String × Val)

/-- Python `k in d`. -/
def containsKey (d : Row) (k : String) : Bool :=
  d.any (fun kv => kv.1 == k)

/-- Python `d.get(k)` / `d[k]`. -/
def dictGet? (d : Row) (k : String) : Option Val :=
  (d.find? (fun kv => kv.1 == k)).map (fun kv => kv.2)

/-- Python `d.get(k, v0)`. -/
def dictGetD (d : Row) (k : String) (v0 : Val) : Val :=
  (dictGet? d k).getD v0

/-- Python `d[k] = v`: update in place when the key exists (keeping its
position, as Python dicts do), otherwise append at the end. -/
def dictInsert (d : Row) (k : String) (v : Val) : Row :=
  if containsKey d k then
    d.map (fun kv => if kv.1 == k then (k, v) else kv)
  else
    d ++ [(k, v)]

/-- Python `d.pop(k)` (the removal effect). -/
def dictPop (d : Row) (k : String) : Row :=
  d.filter (fun kv => kv.1 != k)

/-! ## Single-character split and join

`_split_lists` uses Python's `str.split(sep)` and `_join_lists` uses
`sep.join(...)`.  Schema validation guarantees the separator is a single
character, so both are modelled character-by-character.  Python semantics:
`"".split(",") = [""]`, `"a,,c".split(",") = ["a", "", "c"]`, and `join` is
the exact inverse interleaving.
-/

def pySplitChars (c : Char) : List Char → List (List Char)
  | [] => [[]]
  | x :: xs =>
    let rest := pySplitChars c xs
    if x == c then [] :: rest
    else
      match rest with
      | y :: ys => (x :: y) :: ys
      | [] => [[x]]

/-- Python `s.split(c)` for a single-character separator `c`. -/
def pySplit (c : Char) (s : String) : List String :=
  (pySplitChars c s.data).map (fun cs => String.mk cs)

def pyJoinChars (c : Char) : List (List Char) → List Char
  | [] => []
  | [x] => x
  | x :: xs => x ++ c :: pyJoinChars c xs

/-- Python `c.join(xs)` for a single-character separator `c`. -/
def pyJoin (c : Char) (xs : List String) : String :=
  String.mk (pyJoinChars c (xs.map String.data))

/-! ## Type introspection (`fgmetric/_typing_extensions.py`)

`Ty` models the runtime type annotations the module classifies: plain
types, `NoneType`, parameterized `list[T]` and `Counter[T]`, `StrEnum`
subclasses (carrying their members' string values in declaration order),
and flattened PEP 604 unions (`get_args` order).
-/

inductive Ty where
  | base : String → Ty
  | noneType : Ty
  | listTy : Ty → Ty
  | counterTy : Ty → Ty
  | strEnumTy : List String → Ty
  | unionTy : List Ty → Ty

inductive TyOrigin where
  | listO | counterO | unionO
deriving DecidableEq

/-- Python `typing.get_origin`. -/
def getOrigin : Ty → Option TyOrigin
  | .listTy _ => some .listO
  | .counterTy _ => some .counterO
  | .unionTy _ => some .unionO
  | _ => none

/-- Python `typing.get_args`. -/
def getArgs : Ty → List Ty
  | .listTy t => [t]
  | .counterTy t => [t]
  | .unionTy ts => ts
  | _ => []

/-- Python `t is NoneType` (`NoneType` is a singleton class, so identity
and equality coincide). -/
def isNoneType : Ty → Bool
  | .noneType => true
  | _ => false

/-- `is_optional`: true iff the annotation is a union whose args include
`NoneType`. -/
def is_optional (t : Ty) : Bool :=
  getOrigin t == some .unionO && (getArgs t).any isNoneType

/-- `unpack_optional`: strip `NoneType` from a union; a single remaining
member is returned directly, several are rebuilt into a union via
`reduce(or_, args)`.  Raises `ValueError` on a non-optional input (and
`reduce` would raise `TypeError` on an empty remainder, which no runtime
union can produce). -/
def unpack_optional (t : Ty) : Except String Ty :=
  if !(is_optional t) then .error "Type is not Optional"
  else
    let args := (getArgs t).filter (fun a => !(isNoneType a))
    match args with
    | [a] => .ok a
    | [] => .error "reduce() of empty iterable with no initial value"
    | _ => .ok (.unionTy args)

/-- `has_origin`: direct origin match, or a match after unwrapping one
`Optional` layer. -/
def has_origin (t : Ty) (o : TyOrigin) : Bool :=
  if getOrigin t == some o then true
  else if is_optional t then
    match unpack_optional t with
    | .ok t' => getOrigin t' == some o
    | .error _ => false
  else false

/-- `is_list`: a parameterized `list`, plain or optional. -/
def is_list (t : Ty) : Bool := has_origin t .listO

/-- `is_counter`: a parameterized `Counter`, plain or optional. -/
def is_counter (t : Ty) : Bool := has_origin t .counterO

/-- `has_optional_elements`: after unwrapping an outer `Optional`, a
`list[T]` whose single argument is itself optional. -/
def has_optional_elements (t : Ty) : Bool :=
  let t' := if is_optional t then
    match unpack_optional t with
    | .ok u => u
    | .error _ => t
  else t
  if !(is_list t') then false
  else
    let args := getArgs t'
    args.length == 1 && (args.headD Ty.noneType |> is_optional)

/-! ## The record model and schema-definition-time validation

A `Field` is one pydantic model field: its name and its annotation.
A `Model` is a fully initialized `Metric` subclass: the declared fields (in
declaration order, as `cls.model_fields` preserves it), the
`collection_delimiter` class variable, and the class-level caches computed
once by the two mixins' `__pydantic_init_subclass__` hooks
(`_list_fieldnames`, `_optional_element_fieldnames`, `_counter_fieldname`,
`_counter_enum`).
-/

structure Field where
  name : String
  ann : Ty

structure Model where
  fields : List Field
  collection_delimiter : String
  list_fieldnames : List String
  optional_element_fieldnames : List String
  counter_fieldname : Option String
  counter_enum : Option (List String)

/-- The declared field names, in declaration order (`cls.model_fields.keys()`). -/
def fieldNames (m : Model) : List String := m.fields.map (fun f => f.name)

/-- Python `cls.model_fields.get(name)` (field names are unique, being
class attribute names). -/
def findField (fields : List Field) (name : String) : Option Field :=
  fields.find? (fun f => f.name == name)

/-- `CounterPivotTable._get_counter_fieldname`: at most one `Counter[T]`
field is allowed, and it must not be optional; both violations raise
`TypeError` at class-definition time. -/
def getCounterFieldname (fields : List Field) : Except String (Option String) :=
  let counterFields := fields.filter (fun f => is_counter f.ann)
  if counterFields.length > 1 then
    .error "Only one Counter per model is currently supported."
  else
    match counterFields with
    | [] => .ok none
    | f :: _ =>
      if is_optional f.ann then
        .error "Optional Counter fields are not supported"
      else
        .ok (some f.name)

/-- `CounterPivotTable._get_counter_enum`: the counter's single type
argument must be a `StrEnum` subclass; its members' string values (in
declaration order) are the pivot column names.  A violation raises
`TypeError` at class-definition time. -/
def getCounterEnum (fields : List Field) (cf : Option String) :
    Except String (Option (List String)) :=
  match cf with
  | none => .ok none
  | some name =>
    match findField fields name with
    | none => .ok none -- unreachable: the counter fieldname names a declared field
    | some f =>
      match getArgs f.ann with
      | [Ty.strEnumTy members] => .ok (some members)
      | _ => .error "Counter fields must have a StrEnum type parameter"

/-- `DelimitedList._require_single_character_collection_delimiter`: raises
`ValueError` at class-definition time unless the delimiter is one character. -/
def requireSingleCharDelim (delim : String) : Except String Unit :=
  if delim.length != 1 then
    .error "Class collection delimiter must be a single character"
  else .ok ()

/-- Class-definition-time initialization of a `Metric` subclass: the
`__pydantic_init_subclass__` chain runs `CounterPivotTable`'s validations
first (via `super()`), then `DelimitedList`'s delimiter check and
list-field caches.  Every failure is fatal and happens before any row is
processed (no row is an input here). -/
def initModel (fields : List Field) (delim : String) : Except String Model := do
  let cf ← getCounterFieldname fields
  let ce ← getCounterEnum fields cf
  let _ ← requireSingleCharDelim delim
  .ok { fields := fields
        collection_delimiter := delim
        list_fieldnames := (fields.filter (fun f => is_list f.ann)).map (fun f => f.name)
        optional_element_fieldnames :=
          (fields.filter (fun f => has_optional_elements f.ann)).map (fun f => f.name)
        counter_fieldname := cf
        counter_enum := ce }

/-- True when an `Except` computation raised. -/
def isErr {ε α : Type} : Except ε α → Bool
  | .error _ => true
  | .ok _ => false

/-- The single character of the validated collection delimiter (schema
validation guarantees length 1, so the fallback is unreachable on any
model produced by `initModel`). -/
def delimChar (m : Model) : Char :=
  m.collection_delimiter.data.headD ' '

/-- `Metric._header_fieldnames`: the declared field names; when a counter
field exists it is filtered out and one column per enum member (the
member's string value) is appended at the end. -/
def headerFieldnames (m : Model) : List String :=
  let names := fieldNames m
  match m.counter_fieldname with
  | none => names
  | some cf =>
    (names.filter (fun f => f != cf)) ++
      (match m.counter_enum with
       | some toks => toks
       | none => []) -- assert in the source: set whenever the fieldname is set

/-- Modelled from the spec: "the declared field-name sequence, with the
Accumulator field's name (if any) replaced, at that position, by one name
per enum member (member's string token), in enum declaration order".
Kept separately from `headerFieldnames` so the two derivations can be
compared. -/
def headerFieldnamesSpecPositional (m : Model) : List String :=
  m.fields.flatMap (fun f =>
    if m.counter_fieldname == some f.name then
      (match m.counter_enum with
       | some toks => toks
       | none => [])
    else [f.name])

/-! ## Row-level decode hooks

Both `Metric._empty_field_to_none` and
`CounterPivotTable._collect_counter_values` are `model_validator` hooks in
`"before"` mode: they receive the whole raw input, which may or may not be
a dict.  `PyData` distinguishes the two cases.
-/

inductive PyData where
  | dict : Row → PyData
  | other : Val → PyData

/-- The loop body of `Metric._empty_field_to_none`, for one `(field, value)`
entry: an empty-string value of a declared optional field becomes `None`;
unknown fields, non-empty values, non-string values and non-optional
fields pass through. -/
def normEntry (m : Model) (kv : String × Val) : String × Val :=
  match findField m.fields kv.1 with
  | none => kv -- unknown field, left for pydantic
  | some f =>
    match kv.2 with
    | .s str =>
      if str == "" && is_optional f.ann then (kv.1, Val.vnone) else kv
    | _ => kv

/-- The dict branch of `Metric._empty_field_to_none`: the loop applies
`normEntry` to every entry.  (Python iterates `data.items()` updating
values in place on a shallow copy, which preserves key order — a
per-entry map.) -/
def emptyFieldToNoneRow (m : Model) (row : Row) : Row :=
  row.map (normEntry m)

/-- `Metric._empty_field_to_none`: non-dict input is returned unchanged;
a dict is shallow-copied and rewritten per `emptyFieldToNoneRow`. -/
def emptyFieldToNone (m : Model) (data : PyData) : PyData :=
  match data with
  | .other v => .other v
  | .dict row => .dict (emptyFieldToNoneRow m row)

/-- The post-copy body of `CounterPivotTable._collect_counter_values`:
short-circuit when no counter field is declared or the row already has a
key equal to the counter field's name; otherwise seed every enum member at
count 0 (in enum declaration order), fold every row key that is not a
declared field but is an enum member's string value into the seeded
mapping (removing it from the row), and assign the assembled mapping to
the counter field's slot. -/
def collectCounterRow (m : Model) (row : Row) : Row :=
  match m.counter_fieldname with
  | none => row
  | some cf =>
    if containsKey row cf then row
    else
      let toks := m.counter_enum.getD [] -- assert in the source: always set here
      let counts0 : List (String × Val) := toks.map (fun member => (member, Val.vint 0))
      let counts := row.foldl (fun cs kv =>
          if (fieldNames m).contains kv.1 then cs -- explicitly modelled fields are skipped
          else if toks.contains kv.1 then dictInsert cs kv.1 kv.2 -- enum(key) succeeded
          else cs) counts0 -- enum(key) raised ValueError: leave the key for pydantic
      let keysToPop := (row.filter (fun kv =>
          !((fieldNames m).contains kv.1) && toks.contains kv.1)).map (fun kv => kv.1)
      let row' := keysToPop.foldl (fun d k => dictPop d k) row
      dictInsert row' cf (Val.vcounts counts)

/-- `CounterPivotTable._collect_counter_values`: non-dict input is returned
unchanged; a dict is shallow-copied and rewritten per `collectCounterRow`. -/
def collectCounterValues (m : Model) (data : PyData) : PyData :=
  match data with
  | .other v => .other v
  | .dict row => .dict (collectCounterRow m row)

/-! ### Heap-instrumented rendering of `_collect_counter_values`

The source receives a reference to the caller's dict, makes a shallow copy
(`data = dict(data)`), and from then on every mutation (`data.pop(key)`,
`data[fieldname] = counts`) targets the copy only.  To state that frame
property, dicts live on a small heap (addresses are indices) and the hook
maps a reference to the reference of a freshly allocated copy that holds
the rewritten row. -/

abbrev Heap := List Row

inductive PyRef where
  | ref : Nat → PyRef
  | plain : Val → PyRef

def heapGet (h : Heap) (r : Nat) : Row := h.getD r []

/-- `CounterPivotTable._collect_counter_values` with the mutation structure
made explicit: a non-dict input is returned as-is with the heap untouched;
a dict reference is shallow-copied to a fresh address, and all pops and the
final counter assignment happen on that fresh address. -/
def collectCounterValuesH (m : Model) (h : Heap) (x : PyRef) : Heap × PyRef :=
  match x with
  | .plain v => (h, .plain v)
  | .ref r =>
    let fresh := h.length -- `data = dict(data)` allocates the copy
    let h' := h ++ [collectCounterRow m (heapGet h r)] -- all mutations hit the copy
    (h', .ref fresh)

/-! ## Field-level codec hooks (`DelimitedList`) -/

/-- Python `str(item)` for the values the default field serializer can hand
to `_join_lists` (strings stay themselves, ints print in decimal; the
remaining shapes never occur for serialized list elements). -/
def valToString : Val → String
  | .s str => str
  | .vint n => toString n
  | _ => ""

/-- `DelimitedList._split_lists` (`field_validator`, `"before"` mode): only
string values of fields cached in `_list_fieldnames` are touched.  A
non-empty string is split on the collection delimiter, and for fields in
`_optional_element_fieldnames` each empty segment becomes `None`; the
empty string becomes the empty list. -/
def splitLists (m : Model) (fieldName : String) (v : Val) : Val :=
  match v with
  | .s str =>
    if m.list_fieldnames.contains fieldName then
      if str != "" then
        let parts := pySplit (delimChar m) str
        if m.optional_element_fieldnames.contains fieldName then
          .vlist (parts.map (fun el => if el == "" then Val.vnone else Val.s el))
        else
          .vlist (parts.map Val.s)
      else .vlist []
    else v
  | _ => v

/-- `DelimitedList._join_lists` (`field_serializer`, `"wrap"` mode): for a
list value of a list field, the default handler first serializes each
element (the identity on the primitive values modelled here), then `None`
becomes the empty string, every other element its `str(...)` form, and the
results are joined with the collection delimiter. -/
def joinLists (m : Model) (fieldName : String) (v : Val) : Val :=
  match v with
  | .vlist items =>
    if m.list_fieldnames.contains fieldName then
      .s (pyJoin (delimChar m)
        (items.map (fun it =>
          match it with
          | .vnone => ""
          | it' => valToString it')))
    else v
  | _ => v

/-- `CounterPivotTable._pivot_counter_values` (`model_serializer`, `"wrap"`
mode): after the default serializer produced the row, pop the counter
field's mapping and append one key per (member, count) pair, using the
member's string value, in the mapping's order. -/
def pivotCounterValues (m : Model) (data : Row) : Row :=
  match m.counter_fieldname with
  | none => data
  | some cf =>
    let counts := match dictGet? data cf with
      | some (Val.vcounts cs) => cs
      | _ => [] -- unreachable: a serialized record always carries its counter field
    let data' := dictPop data cf
    counts.foldl (fun d tc => dictInsert d tc.1 tc.2) data'

/-- Decode-then-encode for the counter pivot: `_collect_counter_values`
followed by `_pivot_counter_values`.  The generic validator in between
(model construction plus the default serializer) is the identity on the
member-token-to-count content assembled by the decode hook. -/
def counterRoundTrip (m : Model) (row : Row) : Row :=
  pivotCounterValues m (collectCounterRow m row)

/-- The restriction of a row to its enum-token columns. -/
def tokCols (toks : List String) (row : Row) : Row :=
  row.filter (fun kv => toks.contains kv.1)

/-- The per-entry rewrite applied by the counts-accumulating fold of
`_collect_counter_values`, as a function of the remaining row (a proof
device for `countsFold` below). -/
def countsUpd (fields toks : List String) (row : Row) (tv : String × Val) :
    String × Val :=
  if !(fields.contains tv.1) && toks.contains tv.1 && containsKey row tv.1
  then (tv.1, dictGetD row tv.1 tv.2) else tv

/-- True when the annotation's `get_args` form is the single-`StrEnum`
shape accepted by `_get_counter_enum`. -/
def counterArgsAreStrEnum (t : Ty) : Bool :=
  match getArgs t with
  | [Ty.strEnumTy _] => true
  | _ => false

/-- The non-`None` members of a union's `get_args`, in order (the tuple
`unpack_optional` computes before deciding how to return). -/
def nonNoneArgs (t : Ty) : List Ty :=
  (getArgs t).filter (fun a => !(isNoneType a))

/-- Well-formedness of runtime union annotations: every union value the
Python runtime can construct keeps at least one member besides `NoneType`
(`X | None` dedupes and flattens, and a union has arity at least 2). -/
def unionArgsOk : Ty → Bool
  | .unionTy ts => ts.any (fun a => !(isNoneType a))
  | _ => true

/-- An optional serialized list element, as the default serializer hands
it to `_join_lists`: absent or a string. -/
def optEmbed : Option String → Val
  | none => Val.vnone
  | some s => Val.s s

/-- The string segment `_join_lists` produces for an optional element
(absent becomes the empty string, a present element its string form). -/
def optStr : Option String → String
  | none => ""
  | some s => s

/-! ## Concrete example schemas (witness and counterexample inputs) -/

/-- `list[int]`. -/
def tyListInt : Ty := .listTy (.base "int")

/-- `list[int] | None`. -/
def tyOptListInt : Ty := .unionTy [.listTy (.base "int"), .noneType]

/-- `list[int | None]`. -/
def tyListOptInt : Ty := .listTy (.unionTy [.base "int", .noneType])

/-- A `StrEnum` named `Color` with members `RED = "red"`, `GREEN = "green"`,
`BLUE = "blue"`. -/
def colorEnumTy : Ty := .strEnumTy ["red", "green", "blue"]

/-- Fields of a model with plain, list, optional-list and
optional-element-list columns. -/
def exFieldsL : List Field :=
  [⟨"name", .base "str"⟩, ⟨"vals", tyListInt⟩,
   ⟨"ovals", tyOptListInt⟩, ⟨"evals", tyListOptInt⟩]

/-- The model `initModel exFieldsL ","` produces. -/
def exML : Model :=
  { fields := exFieldsL
    collection_delimiter := ","
    list_fieldnames := ["vals", "ovals", "evals"]
    optional_element_fieldnames := ["evals"]
    counter_fieldname := none
    counter_enum := none }

/-- Fields of a model declaring `name: str` and `counts: Counter[Color]`
(counter declared last). -/
def exFieldsC : List Field :=
  [⟨"name", .base "str"⟩, ⟨"counts", .counterTy colorEnumTy⟩]

/-- The model `initModel exFieldsC ","` produces. -/
def exMC : Model :=
  { fields := exFieldsC
    collection_delimiter := ","
    list_fieldnames := []
    optional_element_fieldnames := []
    counter_fieldname := some "counts"
    counter_enum := some ["red", "green", "blue"] }

/-- Fields of a model declaring `counts: Counter[Color]` first and
`name: str` second (counter not in last position). -/
def exFieldsCF : List Field :=
  [⟨"counts", .counterTy colorEnumTy⟩, ⟨"name", .base "str"⟩]

/-- The model `initModel exFieldsCF ","` produces. -/
def exMCF : Model :=
  { fields := exFieldsCF
    collection_delimiter := ","
    list_fieldnames := []
    optional_element_fieldnames := []
    counter_fieldname := some "counts"
    counter_enum := some ["red", "green", "blue"] }

/-! ## Helper lemmas: dictionaries -/

theorem containsKey_eq_true_iff {d : Row} {k : String} :
    containsKey d k = true ↔ ∃ kv ∈ d, kv.1 = k := by
  simp [containsKey]

theorem containsKey_append (a b : Row) (k : String) :
    containsKey (a ++ b) k = (containsKey a k || containsKey b k) := by
  simp [containsKey, List.any_append]

theorem dictGet?_mapVals (g : String → Val → Val) (row : Row) (k : String) :
    dictGet? (row.map (fun kv => (kv.1, g kv.1 kv.2))) k
      = (dictGet? row k).map (g k) := by
  induction row with
  | nil => simp [dictGet?]
  | cons kv rest ih =>
    unfold dictGet?
    rw [List.map_cons]
    by_cases h : kv.1 = k
    · rw [List.find?_cons_of_pos _ (by simpa using h),
          List.find?_cons_of_pos _ (by simpa using h)]
      simp [h]
    · rw [List.find?_cons_of_neg _ (by simpa using h),
          List.find?_cons_of_neg _ (by simpa using h)]
      exact ih

theorem foldl_dictPop_eq_filter (keys : List String) (row : Row) :
    keys.foldl (fun d k => dictPop d k) row
      = row.filter (fun kv => !(keys.contains kv.1)) := by
  induction keys generalizing row with
  | nil => simp
  | cons k ks ih =>
    show ks.foldl (fun d k => dictPop d k) (dictPop row k) = _
    rw [ih, dictPop, List.filter_filter]
    apply List.filter_congr
    intro kv _
    by_cases h : kv.1 = k <;> simp [h, List.contains]

theorem dictInsert_absent {d : Row} {k : String} (v : Val)
    (h : containsKey d k = false) : dictInsert d k v = d ++ [(k, v)] := by
  simp [dictInsert, h]

theorem foldl_dictInsert_fresh (counts : List (String × Val)) :
    ∀ d : Row, (counts.map Prod.fst).Nodup →
    (∀ tc ∈ counts, containsKey d tc.1 = false) →
    counts.foldl (fun d tc => dictInsert d tc.1 tc.2) d = d ++ counts := by
  induction counts with
  | nil => simp
  | cons c rest ih =>
    intro d hnd habs
    have hnd' : (c.1 :: rest.map Prod.fst).Nodup := by simpa using hnd
    have hhead : c.1 ∉ rest.map Prod.fst := (List.nodup_cons.mp hnd').1
    have htail : (rest.map Prod.fst).Nodup := (List.nodup_cons.mp hnd').2
    have h1 : containsKey d c.1 = false := habs c (by simp)
    show rest.foldl _ (dictInsert d c.1 c.2) = _
    rw [dictInsert_absent c.2 h1]
    have h2 : ∀ tc ∈ rest, containsKey (d ++ [(c.1, c.2)]) tc.1 = false := by
      intro tc htc
      have hne : tc.1 ≠ c.1 := fun he =>
        hhead (he ▸ List.mem_map_of_mem Prod.fst htc)
      have hcd : containsKey d tc.1 = false := habs tc (by simp [htc])
      rw [containsKey_append, hcd]
      simp [containsKey, Ne.symm hne]
    rw [ih (d ++ [(c.1, c.2)]) (by simpa using htail) h2]
    simp

theorem containsKey_cons (kv : String × Val) (d : Row) (k : String) :
    containsKey (kv :: d) k = ((kv.1 == k) || containsKey d k) := by
  simp [containsKey]

theorem dictGetD_cons_pos {kv : String × Val} {k : String} (d : Row) (v0 : Val)
    (h : kv.1 = k) : dictGetD (kv :: d) k v0 = kv.2 := by
  have hb : (kv.1 == k) = true := by simpa using h
  simp [dictGetD, dictGet?, List.find?, hb]

theorem dictGetD_cons_neg {kv : String × Val} {k : String} (d : Row) (v0 : Val)
    (h : ¬ (kv.1 = k)) : dictGetD (kv :: d) k v0 = dictGetD d k v0 := by
  have hb : (kv.1 == k) = false := by simpa using h
  simp [dictGetD, dictGet?, List.find?, hb]

theorem containsKey_map_upd (cs : List (String × Val)) (k0 k : String) (v : Val) :
    containsKey (cs.map (fun kv => if kv.1 == k0 then (k0, v) else kv)) k
      = containsKey cs k := by
  induction cs with
  | nil => rfl
  | cons tv rest ih =>
    by_cases h : tv.1 = k0
    · simp only [List.map_cons, containsKey_cons, ih]
      simp [h]
    · simp only [List.map_cons, containsKey_cons, ih]
      simp [h]

theorem countsUpd_tail (fields toks : List String) (kv : String × Val)
    (rest : Row) (tv : String × Val) (he : ¬ (tv.1 = kv.1)) :
    countsUpd fields toks (kv :: rest) tv = countsUpd fields toks rest tv := by
  unfold countsUpd
  rw [containsKey_cons]
  have h1 : (kv.1 == tv.1) = false := by simp [Ne.symm he]
  rw [h1, Bool.false_or, dictGetD_cons_neg _ _ (fun h => he h.symm)]

/-- Characterization of the counts-accumulating fold in
`_collect_counter_values`: over a row with distinct keys, every seeded
entry whose key occurs in the row outside the declared fields (and inside
the enum tokens) is overwritten with the row's value for that key; all
other entries are untouched, and the entry order is preserved. -/
theorem countsFold (fields toks : List String) (row : Row)
    (hnd : (row.map Prod.fst).Nodup) :
    ∀ cs : List (String × Val),
      (∀ k, toks.contains k = true → containsKey cs k = true) →
      row.foldl (fun cs kv =>
          if fields.contains kv.1 then cs
          else if toks.contains kv.1 then dictInsert cs kv.1 kv.2
          else cs) cs
        = cs.map (countsUpd fields toks row) := by
  induction row with
  | nil =>
    intro cs _
    simp only [List.foldl_nil]
    have h0 : ∀ tv ∈ cs, countsUpd fields toks [] tv = id tv := by
      intro tv _
      simp [countsUpd, containsKey]
    rw [List.map_congr_left h0, List.map_id]
  | cons kv rest ih =>
    intro cs hcs
    have hk : kv.1 ∉ rest.map Prod.fst :=
      (List.nodup_cons.mp (by simpa using hnd)).1
    have hrest : (rest.map Prod.fst).Nodup :=
      (List.nodup_cons.mp (by simpa using hnd)).2
    have hkrest : containsKey rest kv.1 = false := by
      rw [← Bool.not_eq_true]
      intro hcon
      obtain ⟨p, hp, hpk⟩ := containsKey_eq_true_iff.mp hcon
      exact hk (hpk ▸ List.mem_map_of_mem Prod.fst hp)
    rw [List.foldl_cons]
    by_cases hf : fields.contains kv.1 = true
    · rw [if_pos hf, ih hrest cs hcs]
      apply List.map_congr_left
      intro tv _
      by_cases he : tv.1 = kv.1
      · have h2 : tv.1 ∈ fields := by rw [he]; simpa using hf
        simp [countsUpd, h2]
      · exact (countsUpd_tail fields toks kv rest tv he).symm
    · rw [if_neg hf]
      have hf' : fields.contains kv.1 = false := by simpa using hf
      by_cases ht : toks.contains kv.1 = true
      · rw [if_pos ht]
        have hpres : containsKey cs kv.1 = true := hcs kv.1 ht
        have hins : dictInsert cs kv.1 kv.2
            = cs.map (fun tv => if tv.1 == kv.1 then (kv.1, kv.2) else tv) := by
          simp [dictInsert, hpres]
        rw [hins, ih hrest _ (by
          intro k hkk
          rw [containsKey_map_upd]
          exact hcs k hkk)]
        rw [List.map_map]
        apply List.map_congr_left
        intro tv _
        by_cases he : tv.1 = kv.1
        · have h2 : (tv.1 == kv.1) = true := by simpa using he
          show countsUpd fields toks rest
              (if tv.1 == kv.1 then (kv.1, kv.2) else tv)
            = countsUpd fields toks (kv :: rest) tv
          rw [h2]
          simp only [if_true]
          have hL : countsUpd fields toks rest (kv.1, kv.2) = (kv.1, kv.2) := by
            simp [countsUpd, hkrest]
          have hR : countsUpd fields toks (kv :: rest) tv
              = (tv.1, dictGetD (kv :: rest) tv.1 tv.2) := by
            have hcond : (!(fields.contains tv.1) && toks.contains tv.1
                && containsKey (kv :: rest) tv.1) = true := by
              have hfm : kv.1 ∉ fields := by simpa using hf'
              have htm : kv.1 ∈ toks := by simpa using ht
              rw [he, containsKey_cons]
              simp [hfm, htm]
            unfold countsUpd
            rw [if_pos hcond]
          rw [hL, hR, dictGetD_cons_pos _ _ (Eq.symm he), he]
        · show countsUpd fields toks rest
              (if tv.1 == kv.1 then (kv.1, kv.2) else tv)
            = countsUpd fields toks (kv :: rest) tv
          rw [if_neg (by simp [he] : ¬ ((tv.1 == kv.1) = true))]
          exact (countsUpd_tail fields toks kv rest tv he).symm
      · rw [if_neg ht, ih hrest cs hcs]
        have ht' : toks.contains kv.1 = false := by simpa using ht
        apply List.map_congr_left
        intro tv _
        by_cases he : tv.1 = kv.1
        · have h2 : tv.1 ∉ toks := by rw [he]; simpa using ht'
          simp [countsUpd, h2]
        · exact (countsUpd_tail fields toks kv rest tv he).symm

/-! ## Helper lemmas: split and join -/

theorem pySplitChars_ne_nil (c : Char) (l : List Char) : pySplitChars c l ≠ [] := by
  induction l with
  | nil => simp [pySplitChars]
  | cons x xs ih =>
    by_cases h : x = c
    · simp [pySplitChars, h]
    · cases hr : pySplitChars c xs with
      | nil => exact absurd hr ih
      | cons y ys => simp [pySplitChars, h, hr]

theorem pySplitChars_no_sep {c : Char} {l : List Char} (h : c ∉ l) :
    pySplitChars c l = [l] := by
  induction l with
  | nil => rfl
  | cons x xs ih =>
    have hx : ¬ (x = c) := fun he => h (he ▸ List.mem_cons_self x xs)
    have hxs : c ∉ xs := fun hm => h (List.mem_cons_of_mem x hm)
    simp [pySplitChars, hx, ih hxs]

theorem pySplitChars_append_sep {c : Char} {x : List Char} (t : List Char)
    (h : c ∉ x) : pySplitChars c (x ++ c :: t) = x :: pySplitChars c t := by
  induction x with
  | nil => simp [pySplitChars]
  | cons a as ih =>
    have ha : ¬ (a = c) := fun he => h (he ▸ List.mem_cons_self a as)
    have has : c ∉ as := fun hm => h (List.mem_cons_of_mem a hm)
    simp [pySplitChars, ha, ih has]

theorem split_join_chars {c : Char} {ls : List (List Char)} (hne : ls ≠ [])
    (hfree : ∀ l ∈ ls, c ∉ l) :
    pySplitChars c (pyJoinChars c ls) = ls := by
  induction ls with
  | nil => exact absurd rfl hne
  | cons x xs ih =>
    cases xs with
    | nil => exact pySplitChars_no_sep (hfree x (by simp))
    | cons y ys =>
      have : pyJoinChars c (x :: y :: ys) = x ++ c :: pyJoinChars c (y :: ys) := rfl
      rw [this, pySplitChars_append_sep _ (hfree x (by simp))]
      rw [ih (by simp) (fun l hl => hfree l (List.mem_cons_of_mem x hl))]

theorem pyJoinChars_ne_nil {c : Char} {ls : List (List Char)} (hne : ls ≠ [])
    (hne1 : ls ≠ [[]]) : pyJoinChars c ls ≠ [] := by
  cases ls with
  | nil => exact absurd rfl hne
  | cons x xs =>
    cases xs with
    | nil =>
      cases x with
      | nil => exact absurd rfl hne1
      | cons a as => simp [pyJoinChars]
    | cons y ys => simp [pyJoinChars]

theorem string_mk_data (s : String) : String.mk s.data = s := rfl

theorem split_join (c : Char) (xs : List String) (hne : xs ≠ [])
    (hfree : ∀ x ∈ xs, c ∉ x.data) :
    pySplit c (pyJoin c xs) = xs := by
  have hmapne : xs.map String.data ≠ [] := by
    intro h
    exact hne (List.map_eq_nil_iff.mp h)
  have hf : ∀ l ∈ xs.map String.data, c ∉ l := by
    intro l hl
    obtain ⟨x, hx, rfl⟩ := List.mem_map.mp hl
    exact hfree x hx
  show (pySplitChars c (String.mk (pyJoinChars c (xs.map String.data))).data).map
      (fun cs => String.mk cs) = xs
  rw [show (String.mk (pyJoinChars c (xs.map String.data))).data
        = pyJoinChars c (xs.map String.data) from rfl]
  rw [split_join_chars hmapne hf, List.map_map]
  have h1 : List.map ((fun cs => String.mk cs) ∘ String.data) xs = List.map id xs :=
    List.map_congr_left (fun x _ => rfl)
  rw [h1, List.map_id]

/-! ## Helper lemmas: schema initialization -/

theorem findField_of_mem {fields : List Field} {f : Field}
    (hnd : (fields.map (fun g => g.name)).Nodup) (hf : f ∈ fields) :
    findField fields f.name = some f := by
  induction fields with
  | nil => cases hf
  | cons g rest ih =>
    have hnd' : (g.name :: rest.map (fun g => g.name)).Nodup := by simpa using hnd
    rcases List.mem_cons.mp hf with rfl | hmem
    · show List.find? _ (f :: rest) = some f
      rw [List.find?_cons_of_pos _ (by simp)]
    · have hgne : g.name ≠ f.name := by
        intro he
        exact (List.nodup_cons.mp hnd').1
          (he ▸ List.mem_map_of_mem (fun g => g.name) hmem)
      show List.find? _ (g :: rest) = some f
      rw [List.find?_cons_of_neg _ (by simpa using hgne)]
      exact ih (List.nodup_cons.mp hnd').2 hmem

theorem initModel_ok {fields : List Field} {delim : String} {m : Model}
    (h : initModel fields delim = .ok m) :
    m.fields = fields ∧
    m.collection_delimiter = delim ∧
    m.list_fieldnames = (fields.filter (fun f => is_list f.ann)).map (fun f => f.name) ∧
    m.optional_element_fieldnames
      = (fields.filter (fun f => has_optional_elements f.ann)).map (fun f => f.name) ∧
    getCounterFieldname fields = .ok m.counter_fieldname ∧
    getCounterEnum fields m.counter_fieldname = .ok m.counter_enum ∧
    delim.length = 1 := by
  unfold initModel at h
  cases h1 : getCounterFieldname fields with
  | error e => rw [h1] at h; cases h
  | ok cf =>
    rw [h1] at h
    simp only [bind, Except.bind] at h
    cases h2 : getCounterEnum fields cf with
    | error e =>
      rw [h2] at h
      cases h
    | ok ce =>
      rw [h2] at h
      simp only [bind, Except.bind] at h
      cases h3 : requireSingleCharDelim delim with
      | error e =>
        rw [h3] at h
        cases h
      | ok u =>
        rw [h3] at h
        simp only [bind, Except.bind] at h
        have hlen : delim.length = 1 := by
          unfold requireSingleCharDelim at h3
          by_cases hl : delim.length = 1
          · exact hl
          · rw [if_pos (by simpa using hl)] at h3
            cases h3
        cases h
        exact ⟨rfl, rfl, rfl, rfl, rfl, h2, hlen⟩

theorem getCounterFieldname_ok {fields : List Field} {cf : Option String}
    (h : getCounterFieldname fields = .ok cf) :
    (fields.filter (fun f => is_counter f.ann)).length ≤ 1 ∧
    ((cf = none ∧ fields.filter (fun f => is_counter f.ann) = []) ∨
     (∃ f, fields.filter (fun f => is_counter f.ann) = [f] ∧
        cf = some f.name ∧ is_optional f.ann = false)) := by
  unfold getCounterFieldname at h
  by_cases hlen : (fields.filter (fun f => is_counter f.ann)).length > 1
  · rw [if_pos hlen] at h
    cases h
  · rw [if_neg hlen] at h
    refine ⟨by omega, ?_⟩
    cases hfilt : fields.filter (fun f => is_counter f.ann) with
    | nil =>
      rw [hfilt] at h
      left
      exact ⟨by cases h; rfl, rfl⟩
    | cons f rest =>
      have hlen' : rest.length = 0 := by
        rw [hfilt] at hlen
        simp only [List.length_cons] at hlen
        omega
      have hrest : rest = [] := List.length_eq_zero.mp hlen'
      subst hrest
      rw [hfilt] at h
      right
      by_cases hopt : is_optional f.ann = true
      · simp only [hopt, if_true] at h
        exact Except.noConfusion h
      · have hopt' : is_optional f.ann = false := by simpa using hopt
        simp only [hopt', Bool.false_eq_true, if_false] at h
        refine ⟨f, rfl, ?_, hopt'⟩
        cases h
        rfl

theorem getCounterEnum_ok_some {fields : List Field} {name : String}
    {ce : Option (List String)} {f : Field}
    (hfind : findField fields name = some f)
    (h : getCounterEnum fields (some name) = .ok ce) :
    counterArgsAreStrEnum f.ann = true := by
  have h' : (match findField fields name with
      | none => (Except.ok none : Except String (Option (List String)))
      | some f =>
        match getArgs f.ann with
        | [Ty.strEnumTy members] => Except.ok (some members)
        | _ => Except.error "Counter fields must have a StrEnum type parameter")
      = Except.ok ce := h
  rw [hfind] at h'
  have h2 : (match getArgs f.ann with
      | [Ty.strEnumTy members] => (Except.ok (some members) : Except String (Option (List String)))
      | _ => Except.error "Counter fields must have a StrEnum type parameter")
      = Except.ok ce := h'
  unfold counterArgsAreStrEnum
  split at h2
  next members heq => rfl
  next => exact Except.noConfusion h2

/-! ## Helper lemmas: the counter decode hook -/

theorem containsKey_map_const (toks : List String) (v0 : Val) (k : String) :
    containsKey (toks.map (fun t => (t, v0))) k = toks.contains k := by
  induction toks with
  | nil => rfl
  | cons t rest ih =>
    simp only [List.map_cons, containsKey_cons, ih, List.contains_cons]
    by_cases h : t = k
    · simp [h]
    · have h1 : (t == k) = false := by simp [h]
      have h2 : (k == t) = false := by simp [Ne.symm h]
      rw [h1, h2]

theorem contains_mapFst_filter (p : (String × Val) → Bool) (row : Row) (k : String) :
    ((row.filter p).map Prod.fst).contains k = true
      ↔ ∃ kv ∈ row, p kv = true ∧ kv.1 = k := by
  rw [List.elem_iff]
  simp only [List.mem_map, List.mem_filter]
  constructor
  · rintro ⟨kv, ⟨hm, hp⟩, hk⟩
    exact ⟨kv, hm, hp, hk⟩
  · rintro ⟨kv, hm, hp, hk⟩
    exact ⟨kv, ⟨hm, hp⟩, hk⟩

theorem contains_mapFst_filter_keyPred (q : String → Bool) (row : Row)
    {kv : String × Val} (hkv : kv ∈ row) :
    ((row.filter (fun kv => q kv.1)).map Prod.fst).contains kv.1 = q kv.1 := by
  cases hq : q kv.1
  · rw [← Bool.not_eq_true]
    intro hcon
    obtain ⟨kv', hmem, hp, hk⟩ := (contains_mapFst_filter _ row kv.1).mp hcon
    rw [hk, hq] at hp
    exact Bool.noConfusion hp
  · exact (contains_mapFst_filter _ row kv.1).mpr ⟨kv, hkv, hq, rfl⟩

theorem containsKey_filter {q : (String × Val) → Bool} {row : Row} {k : String}
    (h : containsKey row k = false) :
    containsKey (row.filter q) k = false := by
  rw [← Bool.not_eq_true] at h ⊢
  intro hcon
  obtain ⟨kv, hm, hk⟩ := containsKey_eq_true_iff.mp hcon
  exact h (containsKey_eq_true_iff.mpr ⟨kv, (List.mem_filter.mp hm).1, hk⟩)

/-- Full characterization of the dict branch of `_collect_counter_values`
on a row (with distinct keys) that does not already carry the counter
fieldname: entries whose key is an unclaimed enum token are removed, all
other entries stay in place, and the counter field is appended carrying one
entry per enum member (in enum declaration order) — the row's value where
the member's token was an unclaimed row key, and 0 otherwise. -/
theorem collectCounterRow_spec {m : Model} {cf : String} {toks : List String} (row : Row)
    (hcf : m.counter_fieldname = some cf)
    (hce : m.counter_enum = some toks)
    (hnd : (row.map Prod.fst).Nodup)
    (hnc : containsKey row cf = false) :
    collectCounterRow m row =
      row.filter (fun kv => !(!((fieldNames m).contains kv.1) && toks.contains kv.1))
      ++ [(cf, Val.vcounts (toks.map (fun t =>
            (t, if !((fieldNames m).contains t) && containsKey row t
                then dictGetD row t (Val.vint 0) else Val.vint 0))))] := by
  unfold collectCounterRow
  split
  next heq => simp [heq] at hcf
  next cf' heq =>
    rw [heq] at hcf
    have hcf2 : cf' = cf := Option.some.inj hcf
    rw [hcf2]
    rw [if_neg (by simp [hnc])]
    rw [hce]
    simp only [Option.getD_some]
    have hcs0 : ∀ k, toks.contains k = true
        → containsKey (toks.map (fun member => (member, Val.vint 0))) k = true := by
      intro k hk
      rw [containsKey_map_const]
      exact hk
    rw [countsFold (fieldNames m) toks row hnd _ hcs0]
    rw [List.map_map]
    have hpt : ∀ t ∈ toks,
        (countsUpd (fieldNames m) toks row ∘ (fun member => (member, Val.vint 0))) t
          = (t, if !((fieldNames m).contains t) && containsKey row t
                then dictGetD row t (Val.vint 0) else Val.vint 0) := by
      intro t ht
      have htc : toks.contains t = true := by
        rw [List.elem_iff]
        exact ht
      show countsUpd (fieldNames m) toks row (t, Val.vint 0) = _
      unfold countsUpd
      cases hf : (fieldNames m).contains t <;> cases hk : containsKey row t <;>
        simp [ht, htc, hf, hk]
    rw [List.map_congr_left hpt]
    rw [foldl_dictPop_eq_filter]
    have hpops : ∀ kv ∈ row,
        (!(((row.filter (fun kv =>
            !((fieldNames m).contains kv.1) && toks.contains kv.1)).map
              (fun kv => kv.1)).contains kv.1))
          = (!(!((fieldNames m).contains kv.1) && toks.contains kv.1)) := by
      intro kv hkv
      have := contains_mapFst_filter_keyPred
        (fun k => !((fieldNames m).contains k) && toks.contains k) row hkv
      simp only [Prod.fst] at this
      rw [this]
    rw [List.filter_congr hpops]
    have hnc' : containsKey (row.filter (fun kv =>
        !(!((fieldNames m).contains kv.1) && toks.contains kv.1))) cf = false :=
      containsKey_filter hnc
    rw [dictInsert_absent _ hnc']

theorem filter_map_name (p : String → Bool) (l : List Field) :
    (l.map (fun f => f.name)).filter p
      = (l.filter (fun f => p f.name)).map (fun f => f.name) := by
  induction l with
  | nil => rfl
  | cons f rest ih =>
    by_cases h : p f.name = true
    · simp [h, ih]
    · simp only [List.map_cons, List.filter_cons]
      rw [if_neg (by simpa using h), if_neg (by simpa using h), ih]

/-! ## Claim theorems -/

/-- C10: for every input that is not a dict (for example a model instance
being re-validated), both row-level decode hooks — the empty-field
normalizer `_empty_field_to_none` and the accumulator pivot
`_collect_counter_values` — return the input unchanged, so non-row inputs
pass through the row-level pipeline untouched. -/
theorem C10_non_dict_passthrough (m : Model) (v : Val) :
    emptyFieldToNone m (.other v) = .other v
    ∧ collectCounterValues m (.other v) = .other v :=
  ⟨rfl, rfl⟩

/-- C9: `_collect_counter_values` never mutates the caller's row mapping:
it operates on a shallow copy allocated at a fresh heap address, so every
pre-existing heap entry — in particular the caller's dict at address `r` —
is unchanged afterward, the rewritten row lives at the fresh address, and
the returned reference points there. -/
theorem C9_collect_no_mutation (m : Model) (h : Heap) (r i : Nat)
    (hi : i < h.length) :
    ((collectCounterValuesH m h (.ref r)).1)[i]? = h[i]?
    ∧ heapGet (collectCounterValuesH m h (.ref r)).1 h.length
        = collectCounterRow m (heapGet h r)
    ∧ (collectCounterValuesH m h (.ref r)).2 = .ref h.length := by
  refine ⟨?_, ?_, rfl⟩
  · show (h ++ [collectCounterRow m (heapGet h r)])[i]? = h[i]?
    rw [List.getElem?_append, if_pos hi]
  · show heapGet (h ++ [collectCounterRow m (heapGet h r)]) h.length = _
    simp [heapGet, List.getD]

/-- C9 witness: on a one-dict heap the hook leaves the caller's dict (at
address 0) exactly as it was. -/
theorem C9_collect_no_mutation_witness :
    ((collectCounterValuesH exMC [[("red", Val.vint 5)]] (.ref 0)).1)[0]?
      = some [("red", Val.vint 5)] := by
  have h := C9_collect_no_mutation exMC [[("red", Val.vint 5)]] 0 0 (by decide)
  rw [h.1]
  rfl

/-- C1 counterexample: on a model that declares its Counter field first and
another field after it, `_header_fieldnames` appends the enum-member
columns at the end of the header instead of splicing them in at the
Counter field's declared position, so the derivation as the claim states
it (positional replacement) does not hold. -/
theorem C1_counterexample :
    initModel exFieldsCF "," = .ok exMCF
    ∧ headerFieldnames exMCF = ["name", "red", "green", "blue"]
    ∧ headerFieldnamesSpecPositional exMCF = ["red", "green", "blue", "name"]
    ∧ headerFieldnames exMCF ≠ headerFieldnamesSpecPositional exMCF :=
  ⟨rfl, rfl, rfl, by decide⟩

/-- C1 amended: for every validated model, the header-fieldname derivation
returns the declared field-name sequence with the Counter-annotated field
removed (all other names keeping their declaration order) and one name per
enum member appended at the end of the sequence, in enum declaration
order. -/
theorem C1_header_fieldnames_amended (fields : List Field) (delim : String)
    (m : Model) (hok : initModel fields delim = .ok m)
    (hnd : (fields.map (fun f => f.name)).Nodup) :
    headerFieldnames m
      = (fields.filter (fun f => !(is_counter f.ann))).map (fun f => f.name)
        ++ (match m.counter_enum with
            | some toks => toks
            | none => []) := by
  obtain ⟨hfs, _, _, _, hcf, hce, _⟩ := initModel_ok hok
  obtain ⟨hlen, hcases⟩ := getCounterFieldname_ok hcf
  unfold headerFieldnames
  rcases hcases with ⟨hnone, hfilt⟩ | ⟨f0, hfilt, hsome, hopt⟩
  · rw [hnone]
    have hnoce : m.counter_enum = none := by
      rw [hnone] at hce
      unfold getCounterEnum at hce
      exact (Except.ok.inj hce).symm
    rw [hnoce]
    have hflt : fields.filter (fun f => !(is_counter f.ann)) = fields := by
      apply List.filter_eq_self.mpr
      intro f hf
      have : is_counter f.ann = false := by
        by_contra hc
        have : f ∈ fields.filter (fun f => is_counter f.ann) :=
          List.mem_filter.mpr ⟨hf, by simpa using hc⟩
        rw [hfilt] at this
        cases this
      simp [this]
    show fieldNames m
        = (fields.filter (fun f => !(is_counter f.ann))).map (fun f => f.name) ++ []
    unfold fieldNames
    rw [hfs, hflt, List.append_nil]
  · rw [hsome]
    show (fieldNames m).filter (fun f => f != f0.name)
        ++ (match m.counter_enum with
            | some toks => toks
            | none => []) = _
    have hf0mem : f0 ∈ fields := by
      have : f0 ∈ fields.filter (fun f => is_counter f.ann) :=
        hfilt ▸ List.mem_cons_self f0 []
      exact (List.mem_filter.mp this).1
    have hf0c : is_counter f0.ann = true := by
      have : f0 ∈ fields.filter (fun f => is_counter f.ann) :=
        hfilt ▸ List.mem_cons_self f0 []
      simpa using (List.mem_filter.mp this).2
    congr 1
    unfold fieldNames
    rw [hfs, filter_map_name]
    congr 1
    apply List.filter_congr
    intro f hf
    show (f.name != f0.name) = !(is_counter f.ann)
    by_cases he : f = f0
    · subst he
      simp [hf0c]
    · have hne : f.name ≠ f0.name := by
        intro heq
        exact he (List.inj_on_of_nodup_map hnd hf hf0mem heq)
      have hnc : is_counter f.ann = false := by
        by_contra hc
        have hmem : f ∈ fields.filter (fun f => is_counter f.ann) :=
          List.mem_filter.mpr ⟨hf, by simpa using hc⟩
        rw [hfilt] at hmem
        rcases List.mem_singleton.mp hmem with rfl
        exact he rfl
      simp [hne, hnc]

/-- C1 amended witness: the validated `name`/`counts` model maps to the
header with the three color columns appended after `name`. -/
theorem C1_header_fieldnames_amended_witness :
    headerFieldnames exMC = ["name", "red", "green", "blue"] := by
  have h := C1_header_fieldnames_amended exFieldsC "," exMC rfl (by decide)
  exact h.trans rfl

/-- C3: for a model with an Accumulator field `cf` over enum tokens `toks`
and a row (with distinct keys) that does not already contain the key `cf`,
the decode hook assembles a mapping with one entry per enum member (in
declaration order) — the row's value where the member's token is a row key
not claimed by a declared field, and 0 otherwise — removes exactly the
claimed token keys from the row, appends the mapping under `cf`, and
leaves every other row entry untouched and in place. -/
theorem C3_accumulator_decode (m : Model) (cf : String) (toks : List String)
    (row : Row)
    (hcf : m.counter_fieldname = some cf)
    (hce : m.counter_enum = some toks)
    (hnd : (row.map Prod.fst).Nodup)
    (hnc : containsKey row cf = false) :
    collectCounterRow m row =
      row.filter (fun kv => !(!((fieldNames m).contains kv.1) && toks.contains kv.1))
      ++ [(cf, Val.vcounts (toks.map (fun t =>
            (t, if !((fieldNames m).contains t) && containsKey row t
                then dictGetD row t (Val.vint 0) else Val.vint 0))))] :=
  collectCounterRow_spec row hcf hce hnd hnc

/-- C3 witness: a row with one enum-token column, one declared field and
one unknown key decodes to a counter seeded with the missing members at 0,
the token key removed and the other keys untouched. -/
theorem C3_accumulator_decode_witness :
    collectCounterRow exMC [("name", Val.s "x"), ("red", Val.vint 5), ("junk", Val.s "j")]
      = [("name", Val.s "x"), ("junk", Val.s "j"),
         ("counts", Val.vcounts
            [("red", Val.vint 5), ("green", Val.vint 0), ("blue", Val.vint 0)])] := by
  have h := C3_accumulator_decode exMC "counts" ["red", "green", "blue"]
    [("name", Val.s "x"), ("red", Val.vint 5), ("junk", Val.s "j")]
    rfl rfl (by decide) rfl
  exact h.trans rfl

/-- C6: for every field declared as a list with optional elements
(`list[T | None]`), decoding maps every empty-string segment of the split
string to the absent marker and encoding behaves on every absent element
exactly as on an element serializing to the empty string (absent is mapped
back to the empty string before joining); concretely, `"1,,3"` decodes to
`[1, absent, 3]` and `[1, absent, 3]` encodes to `"1,,3"`. -/
theorem C6_optional_elements (m : Model) (fname : String) :
    (∀ s : String,
      m.list_fieldnames.contains fname = true →
      m.optional_element_fieldnames.contains fname = true →
      s ≠ "" →
      splitLists m fname (Val.s s)
        = Val.vlist ((pySplit (delimChar m) s).map
            (fun seg => if seg == "" then Val.vnone else Val.s seg)))
    ∧ (∀ items : List Val,
      m.list_fieldnames.contains fname = true →
      joinLists m fname (Val.vlist items)
        = joinLists m fname (Val.vlist (items.map (fun it =>
            match it with
            | Val.vnone => Val.s ""
            | x => x))))
    ∧ splitLists exML "evals" (Val.s "1,,3")
        = Val.vlist [Val.s "1", Val.vnone, Val.s "3"]
    ∧ joinLists exML "evals" (Val.vlist [Val.vint 1, Val.vnone, Val.vint 3])
        = Val.s "1,,3" := by
  refine ⟨?_, ?_, rfl, rfl⟩
  · intro s h1 h2 hs
    unfold splitLists
    rw [h1]
    simp only [if_true]
    rw [if_pos (by simpa using hs), h2]
    simp only [if_true]
  · intro items h1
    unfold joinLists
    rw [h1]
    simp only [if_true, List.map_map]
    congr 2
    apply List.map_congr_left
    intro it _
    cases it <;> rfl

/-- C6 witness: decoding `"a,,c"` on the optional-element list field of the
example model maps the empty middle segment to the absent marker. -/
theorem C6_optional_elements_witness :
    splitLists exML "evals" (Val.s "a,,c")
      = Val.vlist [Val.s "a", Val.vnone, Val.s "c"] := by
  have h := (C6_optional_elements exML "evals").1 "a,,c" rfl rfl (by decide)
  exact h.trans rfl

/-- C8: `unpack_optional` raises exactly when its argument does not satisfy
`is_optional`; on an optional input it returns the single remaining
non-`None` member directly when exactly one remains, and otherwise a
reconstructed union of all remaining members (in order).  `unionArgsOk`
states the well-formedness every runtime-constructible union has: at least
one member besides `NoneType`. -/
theorem C8_unpack_optional (t : Ty) (hwf : unionArgsOk t = true) :
    (isErr (unpack_optional t) = true ↔ is_optional t = false)
    ∧ (is_optional t = true →
        ((nonNoneArgs t).length = 1
            → unpack_optional t = .ok ((nonNoneArgs t).headD Ty.noneType))
        ∧ (1 < (nonNoneArgs t).length
            → unpack_optional t = .ok (Ty.unionTy (nonNoneArgs t)))) := by
  by_cases hop : is_optional t = true
  · have hne : nonNoneArgs t ≠ [] := by
      cases t with
      | unionTy ts =>
        intro hnil
        have : ts.any (fun a => !(isNoneType a)) = true := by
          simpa [unionArgsOk] using hwf
        obtain ⟨a, ha, hna⟩ := List.any_eq_true.mp this
        have : a ∈ nonNoneArgs (Ty.unionTy ts) :=
          List.mem_filter.mpr ⟨by simpa [getArgs] using ha, hna⟩
        rw [hnil] at this
        cases this
      | base nm => simp [is_optional, getOrigin] at hop
      | noneType => simp [is_optional, getOrigin] at hop
      | listTy u => simp [is_optional, getOrigin] at hop
      | counterTy u => simp [is_optional, getOrigin] at hop
      | strEnumTy ms => simp [is_optional, getOrigin] at hop
    have hun : unpack_optional t
        = (match nonNoneArgs t with
           | [a] => (Except.ok a : Except String Ty)
           | [] => Except.error "reduce() of empty iterable with no initial value"
           | _ => Except.ok (Ty.unionTy (nonNoneArgs t))) := by
      unfold unpack_optional nonNoneArgs
      rw [if_neg (by simp [hop])]
    constructor
    · rw [hun]
      cases hargs : nonNoneArgs t with
      | nil => exact absurd hargs hne
      | cons a rest =>
        cases rest with
        | nil => simp [isErr, hop]
        | cons b bs => simp [isErr, hop]
    · intro _
      constructor
      · intro hlen
        rw [hun]
        cases hargs : nonNoneArgs t with
        | nil => exact absurd hargs hne
        | cons a rest =>
          cases rest with
          | nil => rfl
          | cons b bs => rw [hargs] at hlen; simp at hlen
      · intro hlen
        rw [hun]
        cases hargs : nonNoneArgs t with
        | nil => exact absurd hargs hne
        | cons a rest =>
          cases rest with
          | nil => rw [hargs] at hlen; simp at hlen
          | cons b bs => rfl
  · have hop' : is_optional t = false := by simpa using hop
    have herr : unpack_optional t = .error "Type is not Optional" := by
      unfold unpack_optional
      rw [if_pos (by simp [hop'])]
    refine ⟨?_, ?_⟩
    · rw [herr]
      simp [isErr, hop']
    · intro hcontra
      rw [hop'] at hcontra
      cases hcontra

/-- C8 witness: `int | None` unpacks to `int`, `int | str | None` unpacks
to the rebuilt union `int | str`, and a plain `int` raises. -/
theorem C8_unpack_optional_witness :
    unpack_optional (Ty.unionTy [Ty.base "int", Ty.noneType])
      = .ok (Ty.base "int")
    ∧ unpack_optional (Ty.unionTy [Ty.base "int", Ty.base "str", Ty.noneType])
      = .ok (Ty.unionTy [Ty.base "int", Ty.base "str"])
    ∧ isErr (unpack_optional (Ty.base "int")) = true := by
  refine ⟨?_, ?_, ?_⟩
  · exact ((C8_unpack_optional (Ty.unionTy [Ty.base "int", Ty.noneType])
      (by decide)).2 (by decide)).1 (by decide)
  · exact ((C8_unpack_optional (Ty.unionTy [Ty.base "int", Ty.base "str", Ty.noneType])
      (by decide)).2 (by decide)).2 (by decide)
  · exact (C8_unpack_optional (Ty.base "int") (by decide)).1.mpr (by decide)

theorem dictGet?_map_keyFix (F : (String × Val) → (String × Val))
    (hkey : ∀ kv, (F kv).1 = kv.1) (row : Row) (k : String) :
    dictGet? (row.map F) k
      = (row.find? (fun kv => kv.1 == k)).map (fun kv => (F kv).2) := by
  induction row with
  | nil => rfl
  | cons kv rest ih =>
    unfold dictGet?
    rw [List.map_cons]
    by_cases h : kv.1 = k
    · rw [List.find?_cons_of_pos _ (by simp [hkey kv, h]),
          List.find?_cons_of_pos _ (by simpa using h)]
      rfl
    · rw [List.find?_cons_of_neg _ (by simp [hkey kv, h]),
          List.find?_cons_of_neg _ (by simpa using h)]
      exact ih

/-- C2: under the fixed decode pipeline (the empty-to-absent normalizer
runs before list splitting), on a validated model, a field declared as an
optional list holding the empty string is normalized to the absent marker,
which the list splitter passes through unchanged — so it decodes to
absent, not the empty sequence; and a field declared as a non-optional
list holding the empty string passes through the normalizer untouched and
then splits to the empty sequence, never a one-element sequence containing
the empty string. -/
theorem C2_empty_string_decode (fields : List Field) (delim : String)
    (m : Model) (f : Field) (row : Row)
    (hok : initModel fields delim = .ok m)
    (hnd : (fields.map (fun g => g.name)).Nodup)
    (hf : f ∈ fields)
    (hrow : dictGet? row f.name = some (Val.s "")) :
    (is_list f.ann = true → is_optional f.ann = true →
       dictGet? (emptyFieldToNoneRow m row) f.name = some Val.vnone
       ∧ splitLists m f.name Val.vnone = Val.vnone)
    ∧ (is_list f.ann = true → is_optional f.ann = false →
       dictGet? (emptyFieldToNoneRow m row) f.name = some (Val.s "")
       ∧ splitLists m f.name (Val.s "") = Val.vlist []) := by
  obtain ⟨hfs, _, hlst, _, _, _, _⟩ := initModel_ok hok
  have hfind : findField m.fields f.name = some f := by
    rw [hfs]
    exact findField_of_mem hnd hf
  obtain ⟨kv0, hkv0, hval⟩ : ∃ kv0, row.find? (fun kv => kv.1 == f.name) = some kv0
      ∧ kv0.2 = Val.s "" := by
    unfold dictGet? at hrow
    cases hfd : row.find? (fun kv => kv.1 == f.name) with
    | none => rw [hfd] at hrow; cases hrow
    | some kv0 =>
      rw [hfd] at hrow
      exact ⟨kv0, rfl, Option.some.inj hrow⟩
  have hkv01 : kv0.1 = f.name := by
    have := List.find?_some hkv0
    simpa using this
  have hkv0eq : kv0 = (f.name, Val.s "") := Prod.ext hkv01 hval
  have hkeyfix : ∀ kv : String × Val, (normEntry m kv).1 = kv.1 := by
    intro kv
    unfold normEntry
    split
    · rfl
    · split
      · split <;> rfl
      · rfl
  have hmap : dictGet? (emptyFieldToNoneRow m row) f.name
      = (row.find? (fun kv => kv.1 == f.name)).map (fun kv => (normEntry m kv).2) := by
    unfold emptyFieldToNoneRow
    exact dictGet?_map_keyFix (normEntry m) hkeyfix row f.name
  have hlistmem : is_list f.ann = true → m.list_fieldnames.contains f.name = true := by
    intro hl
    rw [hlst, List.elem_iff]
    exact List.mem_map_of_mem _ (List.mem_filter.mpr ⟨hf, by simpa using hl⟩)
  have hFred : normEntry m (f.name, Val.s "")
      = (match findField m.fields f.name with
         | none => ((f.name, Val.s "") : String × Val)
         | some g =>
           if "" == "" && is_optional g.ann then (f.name, Val.vnone)
           else (f.name, Val.s "")) := rfl
  constructor
  · intro hl hopt
    have hFval : normEntry m (f.name, Val.s "") = (f.name, Val.vnone) := by
      rw [hFred, hfind]
      simp [hopt]
    constructor
    · rw [hmap, hkv0]
      simp [hkv0eq, hFval]
    · rfl
  · intro hl hopt
    have hFval : normEntry m (f.name, Val.s "") = (f.name, Val.s "") := by
      rw [hFred, hfind]
      simp [hopt]
    constructor
    · rw [hmap, hkv0]
      simp [hkv0eq, hFval]
    · unfold splitLists
      rw [hlistmem hl]
      simp

/-- C2 witness: on the example model, the empty string in the optional
list column decodes to absent while the empty string in the plain list
column decodes to the empty sequence. -/
theorem C2_empty_string_decode_witness :
    (dictGet? (emptyFieldToNoneRow exML [("ovals", Val.s ""), ("vals", Val.s "")]) "ovals"
        = some Val.vnone
      ∧ splitLists exML "ovals" Val.vnone = Val.vnone)
    ∧ (dictGet? (emptyFieldToNoneRow exML [("ovals", Val.s ""), ("vals", Val.s "")]) "vals"
        = some (Val.s "")
      ∧ splitLists exML "vals" (Val.s "") = Val.vlist []) := by
  constructor
  · exact (C2_empty_string_decode exFieldsL "," exML ⟨"ovals", tyOptListInt⟩
      [("ovals", Val.s ""), ("vals", Val.s "")] rfl (by decide)
      (List.mem_cons_of_mem _ (List.mem_cons_of_mem _ (List.mem_cons_self _ _)))
      rfl).1 (by decide) (by decide)
  · exact (C2_empty_string_decode exFieldsL "," exML ⟨"vals", tyListInt⟩
      [("ovals", Val.s ""), ("vals", Val.s "")] rfl (by decide)
      (List.mem_cons_of_mem _ (List.mem_cons_self _ _))
      rfl).2 (by decide) (by decide)

/-- C5 counterexample: the one-element sequence holding the empty string
is made of elements whose serialized forms contain no delimiter character,
yet it encodes to the empty string, which decodes to the empty sequence —
so decode-after-encode is not the identity on it. -/
theorem C5_counterexample :
    (',' ∉ "".data)
    ∧ splitLists exML "vals" (joinLists exML "vals" (Val.vlist [Val.s ""]))
        = Val.vlist []
    ∧ Val.vlist ([] : List Val) ≠ Val.vlist [Val.s ""] := by
  refine ⟨by decide, rfl, ?_⟩
  intro h
  injection h with h2
  cases h2

/-- C5 amended: for every list field and every sequence of elements none
of whose serialized string forms contains the delimiter character,
decoding the encoded delimited string gives back the sequence exactly —
unless the sequence is a one-element sequence whose element serializes to
the empty string (for a plain list field, the empty-string element; for an
optional-element field, the absent element), which decodes to the empty
sequence; for optional-element fields, present elements are additionally
required not to serialize to the empty string (such an element would
decode back as absent). -/
theorem C5_round_trip_amended (m : Model) (fname : String) :
    (∀ xs : List String,
      m.list_fieldnames.contains fname = true →
      m.optional_element_fieldnames.contains fname = false →
      (∀ x ∈ xs, delimChar m ∉ x.data) →
      xs ≠ [""] →
      splitLists m fname (joinLists m fname (Val.vlist (xs.map Val.s)))
        = Val.vlist (xs.map Val.s))
    ∧ (∀ xs : List (Option String),
      m.list_fieldnames.contains fname = true →
      m.optional_element_fieldnames.contains fname = true →
      (∀ s : String, some s ∈ xs → s ≠ "" ∧ delimChar m ∉ s.data) →
      xs ≠ [none] →
      splitLists m fname (joinLists m fname (Val.vlist (xs.map optEmbed)))
        = Val.vlist (xs.map optEmbed)) := by
  constructor
  · intro xs h1 h2 hfree hne1
    unfold joinLists
    rw [h1]
    simp only [if_true]
    have hel : (xs.map Val.s).map (fun it =>
        match it with
        | Val.vnone => ""
        | it' => valToString it') = xs := by
      rw [List.map_map]
      have hpt : ∀ x ∈ xs, ((fun it =>
          match it with
          | Val.vnone => ""
          | it' => valToString it') ∘ Val.s) x = x := fun x _ => rfl
      rw [List.map_congr_left hpt]
      simp
    rw [hel]
    cases hxs : xs with
    | nil =>
      subst hxs
      have hj : pyJoin (delimChar m) [] = "" := rfl
      rw [hj]
      unfold splitLists
      rw [h1]
      simp
    | cons x xs' =>
      subst hxs
      have hmapne : (x :: xs').map String.data ≠ [[]] := by
        intro hcon
        have h3 : xs' = [] ∧ x.data = [] := by
          cases xs' with
          | nil => exact ⟨rfl, by simpa using hcon⟩
          | cons y ys => simp at hcon
        apply hne1
        have hx : x = "" := by
          rw [← string_mk_data x, h3.2]
        rw [hx, h3.1]
      have hjoin_ne : pyJoin (delimChar m) (x :: xs') ≠ "" := by
        intro hcon
        have hdat : pyJoinChars (delimChar m) ((x :: xs').map String.data) = [] := by
          have := congrArg String.data hcon
          simpa using this
        exact pyJoinChars_ne_nil (by simp) hmapne hdat
      unfold splitLists
      rw [h1]
      simp only [if_true]
      rw [if_pos (by simpa using hjoin_ne), h2]
      simp only [Bool.false_eq_true, if_false]
      rw [split_join (delimChar m) (x :: xs') (by simp) hfree]
  · intro xs h1 h2 hsome hne1
    unfold joinLists
    rw [h1]
    simp only [if_true]
    have hel : (xs.map optEmbed).map (fun it =>
        match it with
        | Val.vnone => ""
        | it' => valToString it') = xs.map optStr := by
      rw [List.map_map]
      apply List.map_congr_left
      intro o _
      cases o <;> rfl
    rw [hel]
    cases hxs : xs with
    | nil =>
      subst hxs
      simp only [List.map_nil]
      have hj : pyJoin (delimChar m) [] = "" := rfl
      rw [hj]
      unfold splitLists
      rw [h1]
      simp
    | cons o xs' =>
      subst hxs
      have hfree' : ∀ y ∈ (o :: xs').map optStr, delimChar m ∉ y.data := by
        intro y hy
        obtain ⟨o', ho', rfl⟩ := List.mem_map.mp hy
        cases o' with
        | none => simp [optStr]
        | some s => exact (hsome s ho').2
      have hmapne : ((o :: xs').map optStr).map String.data ≠ [[]] := by
        intro hcon
        have h3 : xs' = [] ∧ (optStr o).data = [] := by
          cases xs' with
          | nil => exact ⟨rfl, by simpa using hcon⟩
          | cons y ys => simp at hcon
        cases o with
        | none => exact hne1 (by rw [h3.1])
        | some s =>
          have hs : s = "" := by
            rw [← string_mk_data s, show s.data = [] from h3.2]
          exact (hsome s (by simp)).1 hs
      have hjoin_ne : pyJoin (delimChar m) ((o :: xs').map optStr) ≠ "" := by
        intro hcon
        have hdat : pyJoinChars (delimChar m)
            (((o :: xs').map optStr).map String.data) = [] :=
          congrArg String.data hcon
        exact pyJoinChars_ne_nil (by simp) hmapne hdat
      unfold splitLists
      rw [h1]
      simp only [if_true]
      rw [if_pos (by simpa using hjoin_ne), h2]
      simp only [if_true]
      rw [split_join (delimChar m) _ (by simp) hfree']
      rw [List.map_map]
      congr 1
      apply List.map_congr_left
      intro o' ho'
      cases o' with
      | none => rfl
      | some s =>
        have hsne : s ≠ "" := (hsome s ho').1
        show (if (s == "") = true then Val.vnone else Val.s s) = optEmbed (some s)
        rw [if_neg (by simpa using hsne)]
        rfl

/-- C5 amended witness: `["a", "b"]` on the plain list field and
`[1, absent, 3]`-shaped data on the optional-element field round-trip
exactly through encode then decode. -/
theorem C5_round_trip_amended_witness :
    splitLists exML "vals" (joinLists exML "vals" (Val.vlist [Val.s "a", Val.s "b"]))
      = Val.vlist [Val.s "a", Val.s "b"]
    ∧ splitLists exML "evals"
        (joinLists exML "evals" (Val.vlist [Val.s "1", Val.vnone, Val.s "3"]))
      = Val.vlist [Val.s "1", Val.vnone, Val.s "3"] := by
  constructor
  · exact (C5_round_trip_amended exML "vals").1 ["a", "b"] rfl rfl
      (by decide) (by decide)
  · have h := (C5_round_trip_amended exML "evals").2 [some "1", none, some "3"]
      rfl rfl
      (by
        intro s hs
        simp at hs
        rcases hs with rfl | rfl <;> exact ⟨by decide, by decide⟩)
      (by simp)
    exact h

theorem dictGet?_append_sing {a : Row} {k : String} (v : Val)
    (h : containsKey a k = false) :
    dictGet? (a ++ [(k, v)]) k = some v := by
  induction a with
  | nil => simp [dictGet?, List.find?]
  | cons kv rest ih =>
    rw [containsKey_cons] at h
    have h1 : (kv.1 == k) = false := by
      cases hb : (kv.1 == k)
      · rfl
      · rw [hb] at h; simp at h
    have h2 : containsKey rest k = false := by
      cases hb : containsKey rest k
      · rfl
      · rw [hb] at h; simp at h
    show dictGet? (kv :: (rest ++ [(k, v)])) k = some v
    unfold dictGet?
    rw [List.find?_cons_of_neg _ (by simp [h1])]
    exact ih h2

theorem dictFind_of_mem_nodup {row : Row} {kv : String × Val}
    (hnd : (row.map Prod.fst).Nodup) (h : kv ∈ row) :
    row.find? (fun p => p.1 == kv.1) = some kv := by
  induction row with
  | nil => cases h
  | cons g rest ih =>
    have hnd' : (g.1 :: rest.map Prod.fst).Nodup := by simpa using hnd
    rcases List.mem_cons.mp h with rfl | hmem
    · rw [List.find?_cons_of_pos _ (by simp)]
    · have hgne : g.1 ≠ kv.1 := by
        intro he
        exact (List.nodup_cons.mp hnd').1
          (he ▸ List.mem_map_of_mem Prod.fst hmem)
      rw [List.find?_cons_of_neg _ (by simpa using hgne)]
      exact ih (List.nodup_cons.mp hnd').2 hmem

/-- Characterization of `_pivot_counter_values` on a serialized row that
carries its counter mapping as the last entry: the counter entry is popped
and the mapping's (token, count) pairs are appended in order. -/
theorem pivotCounterValues_spec {m : Model} {cf : String} (rem : Row)
    (cnt : List (String × Val))
    (hcf : m.counter_fieldname = some cf)
    (hrem : containsKey rem cf = false)
    (hcntnd : (cnt.map Prod.fst).Nodup)
    (hfresh : ∀ tc ∈ cnt, containsKey rem tc.1 = false) :
    pivotCounterValues m (rem ++ [(cf, Val.vcounts cnt)]) = rem ++ cnt := by
  unfold pivotCounterValues
  split
  next heq => simp [heq] at hcf
  next cf' heq =>
    have hcf2 : cf' = cf := by
      rw [heq] at hcf
      exact Option.some.inj hcf
    rw [hcf2]
    show (match dictGet? (rem ++ [(cf, Val.vcounts cnt)]) cf with
          | some (Val.vcounts cs) => cs
          | _ => ([] : List (String × Val))).foldl
        (fun (d : Row) (tc : String × Val) => dictInsert d tc.1 tc.2)
        (dictPop (rem ++ [(cf, Val.vcounts cnt)]) cf) = rem ++ cnt
    rw [dictGet?_append_sing (Val.vcounts cnt) hrem]
    have hpop : dictPop (rem ++ [(cf, Val.vcounts cnt)]) cf = rem := by
      unfold dictPop
      rw [List.filter_append]
      have h1 : rem.filter (fun kv => kv.1 != cf) = rem := by
        apply List.filter_eq_self.mpr
        intro kv hkv
        have : kv.1 ≠ cf := by
          intro he
          have : containsKey rem cf = true :=
            containsKey_eq_true_iff.mpr ⟨kv, hkv, he⟩
          rw [this] at hrem
          cases hrem
        simpa using this
      have h2 : ([(cf, Val.vcounts cnt)] : Row).filter (fun kv => kv.1 != cf) = [] := by
        simp
      rw [h1, h2, List.append_nil]
    rw [hpop]
    show cnt.foldl (fun d tc => dictInsert d tc.1 tc.2) rem = rem ++ cnt
    exact foldl_dictInsert_fresh cnt rem hcntnd hfresh

/-- C4 counterexample: with enum `{red, green, blue}` and the input row
`{name: "x", red: 5}`, decode-then-encode emits the enum-token column
`blue` (with count 0) that the original row did not contain, so the
original set of (enum-token → count) columns is not reproduced. -/
theorem C4_counterexample :
    containsKey (counterRoundTrip exMC [("name", Val.s "x"), ("red", Val.vint 5)]) "blue"
      = true
    ∧ dictGet? (counterRoundTrip exMC [("name", Val.s "x"), ("red", Val.vint 5)]) "blue"
      = some (Val.vint 0)
    ∧ containsKey [("name", Val.s "x"), ("red", Val.vint 5)] "blue" = false :=
  ⟨rfl, rfl, rfl⟩

/-- C4 amended: for every record type with an Accumulator field and every
row that contains a count column for every enum member (token keys
distinct, not shadowed by declared field names, and the counter fieldname
itself absent), decoding the row and then encoding the resulting record
reproduces exactly the original set of (enum-token → count) pairs, with
the enum-token keys emitted in enum declaration order; a row missing some
enum-token column instead gains that column with count 0 (see the
counterexample). -/
theorem C4_accumulator_round_trip (m : Model) (cf : String)
    (toks : List String) (row : Row)
    (hcf : m.counter_fieldname = some cf)
    (hce : m.counter_enum = some toks)
    (hndtok : toks.Nodup)
    (hnd : (row.map Prod.fst).Nodup)
    (htot : ∀ t ∈ toks, containsKey row t = true)
    (hdisj : ∀ t ∈ toks, (fieldNames m).contains t = false)
    (hnc : containsKey row cf = false) :
    tokCols toks (counterRoundTrip m row)
      = toks.map (fun t => (t, dictGetD row t (Val.vint 0)))
    ∧ (∀ p : String × Val,
        p ∈ tokCols toks (counterRoundTrip m row) ↔ p ∈ tokCols toks row) := by
  have hcollect := collectCounterRow_spec row hcf hce hnd hnc
  have hcnt : toks.map (fun t =>
      (t, if !((fieldNames m).contains t) && containsKey row t
          then dictGetD row t (Val.vint 0) else Val.vint 0))
    = toks.map (fun t => (t, dictGetD row t (Val.vint 0))) := by
    apply List.map_congr_left
    intro t ht
    rw [hdisj t ht, htot t ht]
    simp
  rw [hcnt] at hcollect
  have hremcf : containsKey (row.filter (fun kv =>
      !(!((fieldNames m).contains kv.1) && toks.contains kv.1))) cf = false :=
    containsKey_filter hnc
  have hcntkeys : (toks.map (fun t => (t, dictGetD row t (Val.vint 0)))).map Prod.fst
      = toks := by
    rw [List.map_map]
    have hpt : ∀ t ∈ toks,
        (Prod.fst ∘ fun t => (t, dictGetD row t (Val.vint 0))) t = t :=
      fun t _ => rfl
    rw [List.map_congr_left hpt]
    simp
  have hcntnd : ((toks.map (fun t => (t, dictGetD row t (Val.vint 0)))).map
      Prod.fst).Nodup := by
    rw [hcntkeys]
    exact hndtok
  have hfresh : ∀ tc ∈ toks.map (fun t => (t, dictGetD row t (Val.vint 0))),
      containsKey (row.filter (fun kv =>
        !(!((fieldNames m).contains kv.1) && toks.contains kv.1))) tc.1 = false := by
    intro tc htc
    obtain ⟨t, ht, rfl⟩ := List.mem_map.mp htc
    cases hck : containsKey (row.filter (fun kv =>
        !(!((fieldNames m).contains kv.1) && toks.contains kv.1))) t
    · rfl
    · exfalso
      obtain ⟨kv, hkv, hk⟩ := containsKey_eq_true_iff.mp hck
      have hkvrow := (List.mem_filter.mp hkv).1
      have hkvpred := (List.mem_filter.mp hkv).2
      rw [hk] at hkvpred
      rw [hdisj t ht] at hkvpred
      have : toks.contains t = true := by
        rw [List.elem_iff]
        exact ht
      rw [this] at hkvpred
      simp at hkvpred
  have hroundtrip : counterRoundTrip m row
      = row.filter (fun kv =>
          !(!((fieldNames m).contains kv.1) && toks.contains kv.1))
        ++ toks.map (fun t => (t, dictGetD row t (Val.vint 0))) := by
    unfold counterRoundTrip
    rw [hcollect]
    exact pivotCounterValues_spec _ _ hcf hremcf hcntnd hfresh
  have hmain : tokCols toks (counterRoundTrip m row)
      = toks.map (fun t => (t, dictGetD row t (Val.vint 0))) := by
    rw [hroundtrip]
    unfold tokCols
    rw [List.filter_append]
    have h1 : (row.filter (fun kv =>
        !(!((fieldNames m).contains kv.1) && toks.contains kv.1))).filter
          (fun kv => toks.contains kv.1) = [] := by
      rw [List.filter_filter]
      apply List.filter_eq_nil_iff.mpr
      intro kv hkv
      intro hcon
      have h2 := (Bool.and_eq_true _ _).mp hcon
      rw [hdisj kv.1 (by rw [← List.elem_iff]; exact h2.1)] at h2
      simp at h2
    have h2 : (toks.map (fun t => (t, dictGetD row t (Val.vint 0)))).filter
        (fun kv => toks.contains kv.1) = toks.map (fun t => (t, dictGetD row t (Val.vint 0))) := by
      apply List.filter_eq_self.mpr
      intro kv hkv
      obtain ⟨t, ht, rfl⟩ := List.mem_map.mp hkv
      rw [List.elem_iff]
      exact ht
    rw [h1, h2, List.nil_append]
  refine ⟨hmain, ?_⟩
  intro p
  rw [hmain]
  constructor
  · intro hp
    obtain ⟨t, ht, rfl⟩ := List.mem_map.mp hp
    have hck := htot t ht
    obtain ⟨kv1, hkv1, hk1⟩ := containsKey_eq_true_iff.mp hck
    have hfind : row.find? (fun p => p.1 == t) = some kv1 := by
      have := dictFind_of_mem_nodup hnd hkv1
      rw [hk1] at this
      exact this
    have hval : dictGetD row t (Val.vint 0) = kv1.2 := by
      unfold dictGetD dictGet?
      rw [hfind]
      rfl
    rw [hval]
    unfold tokCols
    apply List.mem_filter.mpr
    refine ⟨?_, ?_⟩
    · have : (t, kv1.2) = kv1 := Prod.ext hk1.symm rfl
      rw [this]
      exact hkv1
    · rw [List.elem_iff]
      exact ht
  · intro hp
    have hprow := (List.mem_filter.mp hp).1
    have hptok := (List.mem_filter.mp hp).2
    have hfind : row.find? (fun q => q.1 == p.1) = some p :=
      dictFind_of_mem_nodup hnd hprow
    have hval : dictGetD row p.1 (Val.vint 0) = p.2 := by
      unfold dictGetD dictGet?
      rw [hfind]
      rfl
    apply List.mem_map.mpr
    refine ⟨p.1, by rw [← List.elem_iff]; exact hptok, ?_⟩
    exact Prod.ext rfl hval

/-- C4 amended witness: a row carrying all three color columns round-trips
to exactly the same (token, count) pairs, in enum declaration order. -/
theorem C4_accumulator_round_trip_witness :
    tokCols ["red", "green", "blue"]
        (counterRoundTrip exMC
          [("green", Val.vint 2), ("name", Val.s "n"),
           ("red", Val.vint 1), ("blue", Val.vint 3)])
      = [("red", Val.vint 1), ("green", Val.vint 2), ("blue", Val.vint 3)] := by
  have h := (C4_accumulator_round_trip exMC "counts" ["red", "green", "blue"]
    [("green", Val.vint 2), ("name", Val.s "n"),
     ("red", Val.vint 1), ("blue", Val.vint 3)]
    rfl rfl (by decide) (by decide) (by decide) (by decide) rfl).1
  exact h.trans rfl

theorem counterArgs_exists {t : Ty} (h : counterArgsAreStrEnum t = true) :
    ∃ members, getArgs t = [Ty.strEnumTy members] := by
  unfold counterArgsAreStrEnum at h
  split at h
  next members heq => exact ⟨members, heq⟩
  next => cases h

theorem initModel_isOk_characterization (fields : List Field) (delim : String)
    (hnd : (fields.map (fun f => f.name)).Nodup) :
    isErr (initModel fields delim) = false ↔
      (delim.length = 1
       ∧ (fields.filter (fun f => is_counter f.ann)).length ≤ 1
       ∧ ∀ f ∈ fields, is_counter f.ann = true →
           (is_optional f.ann = false ∧ counterArgsAreStrEnum f.ann = true)) := by
  constructor
  · intro hok
    obtain ⟨m, hm⟩ : ∃ m, initModel fields delim = .ok m := by
      cases hres : initModel fields delim with
      | error e => rw [hres] at hok; cases hok
      | ok m => exact ⟨m, rfl⟩
    obtain ⟨_, _, _, _, hcf, hce, hdelim⟩ := initModel_ok hm
    obtain ⟨hlen, hcases⟩ := getCounterFieldname_ok hcf
    refine ⟨hdelim, hlen, ?_⟩
    intro f hf hc
    have hfmem : f ∈ fields.filter (fun f => is_counter f.ann) :=
      List.mem_filter.mpr ⟨hf, by simpa using hc⟩
    rcases hcases with ⟨_, hfilt⟩ | ⟨f0, hfilt, hsome, hopt⟩
    · rw [hfilt] at hfmem
      cases hfmem
    · rw [hfilt] at hfmem
      rcases List.mem_singleton.mp hfmem with rfl
      refine ⟨hopt, ?_⟩
      have hf0mem : f ∈ fields := hf
      have hfind : findField fields f.name = some f := findField_of_mem hnd hf0mem
      rw [hsome] at hce
      exact getCounterEnum_ok_some hfind hce
  · rintro ⟨hdelim, hlen, hconds⟩
    obtain ⟨cf, h1, hcfspec⟩ : ∃ cf, getCounterFieldname fields = .ok cf
        ∧ (cf = none ∨ ∃ f, fields.filter (fun f => is_counter f.ann) = [f]
            ∧ cf = some f.name) := by
      unfold getCounterFieldname
      rw [if_neg (by omega)]
      cases hfilt : fields.filter (fun f => is_counter f.ann) with
      | nil => exact ⟨none, rfl, Or.inl rfl⟩
      | cons f rest =>
        have hrest : rest = [] := by
          rw [hfilt] at hlen
          simp only [List.length_cons] at hlen
          exact List.length_eq_zero.mp (by omega)
        subst hrest
        have hfc : f ∈ fields ∧ is_counter f.ann = true := by
          have hmem : f ∈ fields.filter (fun f => is_counter f.ann) :=
            hfilt ▸ List.mem_cons_self f []
          exact ⟨(List.mem_filter.mp hmem).1, by simpa using (List.mem_filter.mp hmem).2⟩
        have hopt : is_optional f.ann = false := (hconds f hfc.1 hfc.2).1
        refine ⟨some f.name, ?_, Or.inr ⟨f, rfl, rfl⟩⟩
        show (if is_optional f.ann = true
            then (Except.error "Optional Counter fields are not supported"
              : Except String (Option String))
            else Except.ok (some f.name)) = Except.ok (some f.name)
        rw [if_neg (by simp [hopt])]
    obtain ⟨ce, h2⟩ : ∃ ce, getCounterEnum fields cf = .ok ce := by
      rcases hcfspec with rfl | ⟨f, hfilt, rfl⟩
      · exact ⟨none, rfl⟩
      · have hfc : f ∈ fields ∧ is_counter f.ann = true := by
          have hmem : f ∈ fields.filter (fun f => is_counter f.ann) :=
            hfilt ▸ List.mem_cons_self f []
          exact ⟨(List.mem_filter.mp hmem).1, by simpa using (List.mem_filter.mp hmem).2⟩
        have hfind : findField fields f.name = some f := findField_of_mem hnd hfc.1
        obtain ⟨members, hargs⟩ := counterArgs_exists (hconds f hfc.1 hfc.2).2
        refine ⟨some members, ?_⟩
        have step1 : getCounterEnum fields (some f.name)
            = (match getArgs f.ann with
               | [Ty.strEnumTy members] =>
                 (Except.ok (some members) : Except String (Option (List String)))
               | _ => Except.error "Counter fields must have a StrEnum type parameter") := by
          show (match findField fields f.name with
              | none => (Except.ok none : Except String (Option (List String)))
              | some g =>
                match getArgs g.ann with
                | [Ty.strEnumTy members] => Except.ok (some members)
                | _ => Except.error "Counter fields must have a StrEnum type parameter")
            = _
          rw [hfind]
        rw [step1, hargs]
    have h3 : requireSingleCharDelim delim = .ok () := by
      unfold requireSingleCharDelim
      rw [if_neg (by simp [hdelim])]
    show isErr (initModel fields delim) = false
    unfold initModel
    rw [h1]
    simp only [bind, Except.bind]
    rw [h2]
    simp only [bind, Except.bind]
    rw [h3]
    rfl

/-- C7: on a model with distinct field names, schema initialization — the
class-definition-time `__pydantic_init_subclass__` chain, which takes no
row — raises a fatal error exactly when one of the four schema conditions
holds: the list delimiter's length is not exactly 1; more than one field
is declared as an Accumulator (`Counter[T]`); an Accumulator field is
wrapped in `Optional`; or an Accumulator's key type parameter is not a
`StrEnum`.  No row-processing function is involved: the error is decided
by the declaration alone. -/
theorem C7_schema_errors (fields : List Field) (delim : String)
    (hnd : (fields.map (fun f => f.name)).Nodup) :
    isErr (initModel fields delim) = true ↔
      (delim.length ≠ 1
       ∨ 1 < (fields.filter (fun f => is_counter f.ann)).length
       ∨ (∃ f ∈ fields, is_counter f.ann = true ∧ is_optional f.ann = true)
       ∨ (∃ f ∈ fields, is_counter f.ann = true
            ∧ counterArgsAreStrEnum f.ann = false)) := by
  rw [show (isErr (initModel fields delim) = true)
      = ¬ (isErr (initModel fields delim) = false) by simp]
  rw [initModel_isOk_characterization fields delim hnd]
  constructor
  · intro hne
    by_cases hA : delim.length = 1
    · by_cases hB : (fields.filter (fun f => is_counter f.ann)).length ≤ 1
      · right; right
        by_contra hno
        push_neg at hno
        obtain ⟨h3, h4⟩ := hno
        apply hne
        refine ⟨hA, hB, ?_⟩
        intro f hf hc
        constructor
        · by_cases ho : is_optional f.ann = true
          · exact absurd ho (h3 f hf hc)
          · simpa using ho
        · by_cases hs : counterArgsAreStrEnum f.ann = true
          · exact hs
          · exact absurd (by simpa using hs) (h4 f hf hc)
      · right; left; omega
    · left; exact hA
  · intro hdisj hconj
    obtain ⟨cA, cB, cC⟩ := hconj
    rcases hdisj with hA | hB | ⟨f, hf, hc, ho⟩ | ⟨f, hf, hc, hs⟩
    · exact hA cA
    · omega
    · have := (cC f hf hc).1
      rw [this] at ho
      cases ho
    · have := (cC f hf hc).2
      rw [this] at hs
      cases hs

/-- C7 witness: each of the four bad declarations — two-character
delimiter, two Counter fields, an `Optional`-wrapped Counter, and a
Counter over `int` — fails schema initialization. -/
theorem C7_schema_errors_witness :
    isErr (initModel exFieldsC ";;") = true
    ∧ isErr (initModel [⟨"a", .counterTy colorEnumTy⟩, ⟨"b", .counterTy colorEnumTy⟩] ",")
        = true
    ∧ isErr (initModel [⟨"a", .unionTy [.counterTy colorEnumTy, .noneType]⟩] ",") = true
    ∧ isErr (initModel [⟨"a", .counterTy (.base "int")⟩] ",") = true := by
  refine ⟨?_, ?_, ?_, ?_⟩
  · exact (C7_schema_errors exFieldsC ";;" (by decide)).mpr (Or.inl (by decide))
  · exact (C7_schema_errors [⟨"a", .counterTy colorEnumTy⟩, ⟨"b", .counterTy colorEnumTy⟩]
      "," (by decide)).mpr (Or.inr (Or.inl (by decide)))
  · apply (C7_schema_errors [⟨"a", .unionTy [.counterTy colorEnumTy, .noneType]⟩]
      "," (by decide)).mpr
    right; right; left
    exact ⟨⟨"a", .unionTy [.counterTy colorEnumTy, .noneType]⟩,
      List.mem_cons_self _ _, by decide, by decide⟩
  · apply (C7_schema_errors [⟨"a", .counterTy (.base "int")⟩] "," (by decide)).mpr
    right; right; right
    exact ⟨⟨"a", .counterTy (.base "int")⟩, List.mem_cons_self _ _, by decide, by decide⟩

end FgMetric
